import Mathlib

/-!
Verification of the distributed graph-coloring simulator
(`src/main.rs` of thomaslienbacher/color-reduction).

The Rust program drives a synchronous round-based message-passing
simulation of the distributed randomized (Δ+1)-coloring algorithm.
This file gives a shallow embedding of the program: the `Coloring`
and `Node` types mirror the Rust data model, `deliverPhase`,
`updateNode`, `computePhase` and `algLoop` mirror the phases of
`distributed_randomized_coloring_algorithm`, and the topology
providers `completeGraphEdges` / `chainEdges` mirror the graph
constructors. Randomness (`rand::thread_rng` driving
`IteratorRandom::choose` on a `HashSet`) is modelled by a list of
draw values: each draw indexes into the canonical listing of the
set that the program chooses from, so quantifying over all draw
lists covers every behaviour of the random source. The possibly
non-terminating `loop` of the Rust code is modelled by an explicit
fuel parameter: `RunOutcome.unconverged` means the source loop is
still running after the given number of rounds, and
`RunOutcome.panicked` models the `unwrap()` panic on an empty set
of available colors.
-/

namespace ColorReduction

/-- Mirror of the Rust `enum Coloring { Permanent(Color), Candidate(Color) }`. -/
inductive Coloring where
  | Permanent (c : Nat)
  | Candidate (c : Nat)
deriving DecidableEq, Repr

/-- Mirror of `Coloring::color`: the payload of either variant. -/
def Coloring.color : Coloring → Nat
  | .Permanent v => v
  | .Candidate v => v

/-- Whether a coloring is still tentative (mirror of the
`has_candidate_color` closure in `main.rs`). -/
def Coloring.isCandidate : Coloring → Bool
  | .Permanent _ => false
  | .Candidate _ => true

/-- Does this inbox message carry `Permanent c`?  Used to build the
set of available colors exactly as the `if let Permanent(v)` branch of
the compute phase does. -/
def Coloring.isPermanentWith : Coloring → Nat → Bool
  | .Permanent v, c => v == c
  | .Candidate _, _ => false

/-- Mirror of the Rust `struct Node { id, coloring, inbox }`. -/
structure Node where
  id : Nat
  coloring : Coloring
  inbox : List Coloring
deriving DecidableEq, Repr

/-- Mirror of the Rust `N` constructor: a fresh node with tentative
color equal to its identity and an empty inbox. -/
def N (id : Nat) : Node :=
  { id := id, coloring := .Candidate id, inbox := [] }

/-- The palette `(0..=delta).collect()` of the randomized algorithm. -/
def palette (delta : Nat) : List Nat := List.range (delta + 1)

/-- `available_colors` of the compute phase: the palette minus every
color carried by a `Permanent` inbox message. -/
def availableColors (delta : Nat) (inbox : List Coloring) : List Nat :=
  (palette delta).filter (fun c => !(inbox.any (fun m => m.isPermanentWith c)))

/-- `candidate_colors` of the compute phase: the palette minus every
color carried by any inbox message, `Permanent` or `Candidate`. -/
def candidateColors (delta : Nat) (inbox : List Coloring) : List Nat :=
  (palette delta).filter (fun c => !(inbox.any (fun m => m.color == c)))

/-- Model of `set.iter().choose(&mut rng)` on a nonempty listing of a
set: the draw value `d` indexes into the listing.  Every element is
selected by some draw value, so quantifying over draws covers every
behaviour of the random choice. -/
def chooseFrom (l : List Nat) (d : Nat) : Nat :=
  l.getD (d % l.length) 0

/-- The per-vertex body of the compute phase of
`distributed_randomized_coloring_algorithm` (`main.rs`, the loop over
`nodes.iter_mut().filter(has_candidate_color)`).  A `Permanent` node is
skipped by that filter, so it is returned unchanged and consumes no
randomness.  A `Candidate` node clears its inbox and either commits to
its color (when nobody around it holds that color) or redraws from the
available colors, consuming one draw; `none` models the `unwrap()`
panic when the available set is empty. -/
def updateNode (delta : Nat) (n : Node) (ds : List Nat) : Option (Node × List Nat) :=
  match n.coloring with
  | .Permanent _ => some (n, ds)
  | .Candidate c =>
    if (candidateColors delta n.inbox).contains c then
      some ({ n with coloring := .Permanent c, inbox := [] }, ds)
    else
      let avail := availableColors delta n.inbox
      if avail.isEmpty then none
      else some ({ n with coloring := .Candidate (chooseFrom avail (ds.headD 0)), inbox := [] }, ds.tail)

/-- The compute phase: every node is updated in vector order, threading
the stream of random draws through the sequential loop. -/
def computePhase (delta : Nat) : List Node → List Nat → Option (List Node × List Nat)
  | [], ds => some ([], ds)
  | n :: ns, ds =>
    match updateNode delta n ds with
    | none => none
    | some (n', ds') =>
      match computePhase delta ns ds' with
      | none => none
      | some (ns', ds'') => some (n' :: ns', ds'')

/-- One directed edge delivery: push the coloring of node `u` into the
inbox of node `v` (the body of `for e in graph.edges()`).  `List.set`
is a no-op out of range; the program only ever delivers along edges
whose endpoints are valid node indices. -/
def pushMsg (nodes : List Node) (u v : Nat) : List Node :=
  match nodes.get? u with
  | none => nodes
  | some nu =>
    match nodes.get? v with
    | none => nodes
    | some nv => nodes.set v { nv with inbox := nv.inbox ++ [nu.coloring] }

/-- The deliver phase: every directed edge of the graph copies the
current coloring of its source into the inbox of its target. -/
def deliverPhase (edges : List (Nat × Nat)) (nodes : List Node) : List Node :=
  match edges with
  | [] => nodes
  | (u, v) :: es => deliverPhase es (pushMsg nodes u v)

/-- One full round of the simulator: deliver phase followed by compute
phase. -/
def roundStep (delta : Nat) (edges : List (Nat × Nat)) (nodes : List Node) (ds : List Nat) :
    Option (List Node × List Nat) :=
  computePhase delta (deliverPhase edges nodes) ds

/-- The state after `k` rounds (or `none` if a round panicked). -/
def iterRounds (delta : Nat) (edges : List (Nat × Nat)) :
    Nat → List Node × List Nat → Option (List Node × List Nat)
  | 0, s => some s
  | k + 1, s =>
    match roundStep delta edges s.1 s.2 with
    | none => none
    | some s' => iterRounds delta edges k s'

/-- Outcome of running the (possibly non-terminating) round loop for a
bounded number of rounds: the loop broke out with a final node
collection, the `unwrap()` panicked, or the fuel ran out with the
source loop still running. -/
inductive RunOutcome where
  | finished (nodes : List Node)
  | panicked
  | unconverged
deriving DecidableEq, Repr

/-- The round loop of `distributed_randomized_coloring_algorithm`:
deliver, compute, then break as soon as no `Candidate` node remains.
`fuel` bounds how many rounds we unfold the source `loop`. -/
def algLoop (delta : Nat) (edges : List (Nat × Nat)) :
    Nat → List Node → List Nat → RunOutcome
  | 0, _, _ => .unconverged
  | fuel + 1, ns, ds =>
    match roundStep delta edges ns ds with
    | none => .panicked
    | some (ns', ds') =>
      if ns'.all (fun n => !n.coloring.isCandidate) then .finished ns'
      else algLoop delta edges fuel ns' ds'

/-- The initialization loop: every node draws a uniformly random color
from the full palette, consuming one draw per node. -/
def initPhase (delta : Nat) : List Node → List Nat → List Node × List Nat
  | [], ds => ([], ds)
  | n :: ns, ds =>
    let (ns', ds') := initPhase delta ns ds.tail
    ({ n with coloring := .Candidate (chooseFrom (palette delta) (ds.headD 0)) } :: ns', ds')

/-- Mirror of `distributed_randomized_coloring_algorithm`: random
initialization followed by the round loop. -/
def distributed_randomized_coloring_algorithm (delta : Nat) (edges : List (Nat × Nat))
    (fuel : Nat) (nodes : List Node) (ds : List Nat) : RunOutcome :=
  algLoop delta edges fuel (initPhase delta nodes ds).1 (initPhase delta nodes ds).2

/-- Edge list of `complete_graph`: for every ordered pair of distinct
vertex indices one directed edge, in the iteration order of the two
nested loops. -/
def completeGraphEdges (n : Nat) : List (Nat × Nat) :=
  (List.range n).flatMap (fun u => ((List.range n).filter (fun v => v ≠ u)).map (fun v => (u, v)))

/-- Node vector produced by the topology providers: `N(i)` for each
index in order. -/
def initialNodes (n : Nat) : List Node := (List.range n).map N

/-- Edge list of `chain`: both directions of each edge `i -- i+1`. -/
def chainEdges (n : Nat) : List (Nat × Nat) :=
  (List.range (n - 1)).flatMap (fun i => [(i, i + 1), (i + 1, i)])

/-- Number of directed edges pointing at vertex `v`; for the symmetric
edge lists the providers build, this is the degree of `v`. -/
def inDegree (edges : List (Nat × Nat)) (v : Nat) : Nat :=
  edges.countP (fun e => e.2 == v)

/-- Number of nodes still holding a tentative color. -/
def countCandidates (ns : List Node) : Nat :=
  ns.countP (fun n => n.coloring.isCandidate)

/-- `n'` is a possible result of the per-vertex compute step on `n`,
for some stream of random draws. -/
def stepRel (delta : Nat) (n n' : Node) : Prop :=
  ∃ ds ds', updateNode delta n ds = some (n', ds')

/-- Invariant: every color in the collection lies in the palette. -/
def ColorsLe (delta : Nat) (ns : List Node) : Prop :=
  ∀ n ∈ ns, n.coloring.color ≤ delta

/-- Invariant: no edge joins two `Permanent` nodes of equal color. -/
def ValidInv (edges : List (Nat × Nat)) (ns : List Node) : Prop :=
  ∀ u v, (u, v) ∈ edges → ∀ a b, ns.get? u = some a → ns.get? v = some b →
    ∀ cu cv, a.coloring = .Permanent cu → b.coloring = .Permanent cv → cu ≠ cv

/-- Per-vertex compute step at index `i` of the collection, with a
fixed assignment `dsf` of random draws to vertex indices: the same
`updateNode` body the compute phase runs, touching only index `i`. -/
def computeAt (delta : Nat) (dsf : Nat → Nat) (ns : List Node) (i : Nat) : Option (List Node) :=
  match ns.get? i with
  | none => some ns
  | some n =>
    match updateNode delta n [dsf i] with
    | none => none
    | some (n', _) => some (ns.set i n')

/-- The compute phase processed in an arbitrary vertex order, with a
fixed assignment of random draws to vertex indices. -/
def computeSeq (delta : Nat) (dsf : Nat → Nat) : List Nat → List Node → Option (List Node)
  | [], ns => some ns
  | i :: rest, ns =>
    match computeAt delta dsf ns i with
    | none => none
    | some ns1 => computeSeq delta dsf rest ns1

/-- Modelled from the spec: vertex state of the deterministic
halving/tie-break policy (spec section 4.3), which has no source under
`src/`: one unbounded-but-shrinking color per vertex, no
tentative/permanent split. -/
structure HNode where
  id : Nat
  color : Nat
deriving DecidableEq, Repr

/-- Modelled from the spec: the messages vertex index `v` receives in a
round of the halving policy — the `(sender identity, sender color)`
snapshot of every in-neighbor, delivered along the directed edges. -/
def hNeighborMsgs (edges : List (Nat × Nat)) (ns : List HNode) (v : Nat) : List HNode :=
  (edges.filter (fun e => e.2 == v)).filterMap (fun e => ns.get? e.1)

/-- Modelled from the spec: first-fit recoloring — the smallest
non-negative integer not present in the neighbor-color set; some value
in `[0, length]` is always free. -/
def mex (l : List Nat) : Nat :=
  (((List.range (l.length + 1)).filter (fun c => !(l.contains c))).headD 0)

/-- Modelled from the spec: the maximum identity among the vertex and
all neighbors sharing its exact color (the tie-break rule). -/
def maxSharerId (n : HNode) (msgs : List HNode) : Nat :=
  (msgs.filter (fun m => m.color == n.color)).foldl (fun acc m => max acc m.id) n.id

/-- Modelled from the spec: per-round update of one vertex of the
halving policy — keep the color if no neighbor shares it; in a
same-color conflict only the maximum-identity sharer recolors, to the
first-fit color against the neighbor snapshot. -/
def hUpdate (n : HNode) (msgs : List HNode) : HNode :=
  let neighborColors := msgs.map (fun m => m.color)
  if neighborColors.contains n.color then
    if n.id == maxSharerId n msgs then { n with color := mex neighborColors } else n
  else n

/-- Modelled from the spec: one synchronous round of the halving
policy — every vertex updates simultaneously against the previous
round's snapshot. -/
def hRound (edges : List (Nat × Nat)) (ns : List HNode) : List HNode :=
  ns.mapIdx (fun v n => hUpdate n (hNeighborMsgs edges ns v))

/-- Modelled from the spec: initialization of the halving policy —
every vertex's color starts as its identity ceil-divided by two. -/
def hInit (n : Nat) : List HNode :=
  (List.range n).map (fun i => { id := i, color := (i + 1) / 2 })

/-- Modelled from the spec: the halving convergence check — the run is
converged once the largest color in use is at most `delta + 1`,
checked after a full pass. -/
def hConverged (delta : Nat) (ns : List HNode) : Bool :=
  ns.all (fun n => n.color ≤ delta + 1)

/-- Modelled from the spec: the bounded round loop of the halving
policy — rounds until the convergence check passes, with `none` as the
non-convergence error when the round bound is exceeded. -/
def halvingLoop (delta : Nat) (edges : List (Nat × Nat)) :
    Nat → List HNode → Option (List HNode)
  | 0, _ => none
  | fuel + 1, ns =>
    let ns' := hRound edges ns
    if hConverged delta ns' then some ns' else halvingLoop delta edges fuel ns'

/-- Final node collection of the 5-vertex complete-graph run driven by
the draw list `[0, 1, 2, 3, 4]`: every vertex starts on its own color
and goes permanent in round 1. -/
def k5Final : List Node :=
  [Node.mk 0 (.Permanent 0) [], Node.mk 1 (.Permanent 1) [], Node.mk 2 (.Permanent 2) [],
    Node.mk 3 (.Permanent 3) [], Node.mk 4 (.Permanent 4) []]

lemma chooseFrom_mem {l : List Nat} (h : l ≠ []) (d : Nat) : chooseFrom l d ∈ l := by
  have hlen : 0 < l.length := List.length_pos.mpr h
  have hm : d % l.length < l.length := Nat.mod_lt _ hlen
  rw [chooseFrom, List.getD_eq_getElem l 0 hm]
  exact List.getElem_mem hm

lemma mem_palette {delta c : Nat} : c ∈ palette delta ↔ c ≤ delta := by
  simp [palette, List.mem_range, Nat.lt_succ_iff]

lemma availableColors_subset {delta : Nat} {inbox : List Coloring} {c : Nat}
    (h : c ∈ availableColors delta inbox) : c ≤ delta := by
  have := List.mem_of_mem_filter h
  exact mem_palette.mp this

lemma mem_candidateColors {delta : Nat} {inbox : List Coloring} {c : Nat} :
    c ∈ candidateColors delta inbox ↔ c ≤ delta ∧ ∀ m ∈ inbox, m.color ≠ c := by
  simp [candidateColors, List.mem_filter, palette, Nat.lt_succ_iff]

lemma updateNode_of_permanent {delta : Nat} {n : Node} {c : Nat} (h : n.coloring = .Permanent c)
    (ds : List Nat) : updateNode delta n ds = some (n, ds) := by
  simp [updateNode, h]

lemma stepRel_cases {delta : Nat} {n n' : Node} (h : stepRel delta n n') :
    (n.coloring.isCandidate = false ∧ n' = n) ∨
    (∃ c, n.coloring = .Candidate c ∧
      ((c ∈ candidateColors delta n.inbox ∧
          n' = { n with coloring := .Permanent c, inbox := [] }) ∨
        (c ∉ candidateColors delta n.inbox ∧
          ∃ c', c' ∈ availableColors delta n.inbox ∧
            n' = { n with coloring := .Candidate c', inbox := [] }))) := by
  obtain ⟨ds, ds', h⟩ := h
  unfold updateNode at h
  split at h
  case _ c hc =>
    simp only [Option.some.injEq, Prod.mk.injEq] at h
    exact Or.inl ⟨by simp [hc, Coloring.isCandidate], h.1.symm⟩
  case _ c hc =>
    refine Or.inr ⟨c, hc, ?_⟩
    split at h
    case isTrue hin =>
      simp only [Option.some.injEq, Prod.mk.injEq] at h
      exact Or.inl ⟨by simpa using hin, h.1.symm⟩
    case isFalse hin =>
      dsimp only [] at h
      split at h
      case isTrue he => cases h
      case isFalse he =>
        simp only [Option.some.injEq, Prod.mk.injEq] at h
        have hne : availableColors delta n.inbox ≠ [] := by
          simpa [List.isEmpty_iff] using he
        refine Or.inr ⟨fun hmem => hin (by simpa using hmem), ?_⟩
        exact ⟨_, chooseFrom_mem hne _, h.1.symm⟩

lemma stepRel_candidate_of_candidate {delta : Nat} {n n' : Node} (h : stepRel delta n n')
    (hc : n'.coloring.isCandidate = true) : n.coloring.isCandidate = true := by
  rcases stepRel_cases h with ⟨hf, rfl⟩ | ⟨c, hc', _⟩
  · exact absurd hc (by simp [hf])
  · simp [hc', Coloring.isCandidate]

lemma stepRel_permanent {delta : Nat} {n n' : Node} {c : Nat} (h : stepRel delta n n')
    (hc : n.coloring = .Permanent c) : n' = n := by
  rcases stepRel_cases h with ⟨_, rfl⟩ | ⟨c', hc', _⟩
  · rfl
  · rw [hc] at hc'; cases hc'

lemma computePhase_length {delta : Nat} :
    ∀ {ns : List Node} {ds : List Nat} {ns' : List Node} {ds' : List Nat},
      computePhase delta ns ds = some (ns', ds') → ns'.length = ns.length := by
  intro ns
  induction ns with
  | nil => intro ds ns' ds' h; simp only [computePhase, Option.some.injEq, Prod.mk.injEq] at h
           rw [← h.1]
  | cons n rest ih =>
    intro ds ns' ds' h
    unfold computePhase at h
    split at h
    · cases h
    case _ n1 ds1 hu =>
      split at h
      · cases h
      case _ ns1 ds2 hrest =>
        simp only [Option.some.injEq, Prod.mk.injEq] at h
        rw [← h.1]
        simp [ih hrest]

lemma computePhase_stepRel {delta : Nat} :
    ∀ {ns : List Node} {ds : List Nat} {ns' : List Node} {ds' : List Nat},
      computePhase delta ns ds = some (ns', ds') →
      ∀ i n, ns.get? i = some n → ∃ n', ns'.get? i = some n' ∧ stepRel delta n n' := by
  intro ns
  induction ns with
  | nil => intro ds ns' ds' h i n hn; simp at hn
  | cons hd rest ih =>
    intro ds ns' ds' h i n hn
    unfold computePhase at h
    split at h
    · cases h
    case _ n1 ds1 hu =>
      split at h
      · cases h
      case _ ns1 ds2 hrest =>
        simp only [Option.some.injEq, Prod.mk.injEq] at h
        cases i with
        | zero =>
          simp only [List.get?_cons_zero, Option.some.injEq] at hn
          refine ⟨n1, ?_, ?_⟩
          · rw [← h.1]; rfl
          · exact ⟨ds, ds1, by rw [← hn, hu]⟩
        | succ j =>
          simp only [List.get?_cons_succ] at hn
          obtain ⟨n', hn', hrel⟩ := ih hrest j n hn
          refine ⟨n', ?_, hrel⟩
          rw [← h.1]
          simpa using hn'

lemma pushMsg_length (ns : List Node) (u v : Nat) : (pushMsg ns u v).length = ns.length := by
  unfold pushMsg
  split
  · rfl
  · split
    · rfl
    · simp

lemma pushMsg_get?_push {ns : List Node} {u v : Nat} {nu nv : Node}
    (hu : ns.get? u = some nu) (hv : ns.get? v = some nv) :
    (pushMsg ns u v).get? v = some { nv with inbox := nv.inbox ++ [nu.coloring] } := by
  have hlt : v < ns.length := by
    rcases List.get?_eq_some.mp hv with ⟨h, _⟩
    exact h
  unfold pushMsg
  rw [hu, hv]
  exact List.get?_set_eq_of_lt _ hlt

lemma pushMsg_get? {ns : List Node} (u v : Nat) {i : Nat} {a : Node}
    (ha : ns.get? i = some a) :
    ∃ t : List Coloring, (pushMsg ns u v).get? i = some { a with inbox := a.inbox ++ t } ∧
      t.length ≤ (if v = i then 1 else 0) := by
  by_cases hvi : v = i
  · subst hvi
    cases hu : ns.get? u with
    | none =>
      refine ⟨[], ?_, by simp⟩
      unfold pushMsg
      rw [hu, ha]
      simpa using ha
    | some nu =>
      exact ⟨[nu.coloring], pushMsg_get?_push hu ha, by simp⟩
  · refine ⟨[], ?_, by simp⟩
    unfold pushMsg
    split
    · simpa using ha
    · split
      · simpa using ha
      · rw [List.get?_set_ne _ _ hvi]
        simpa using ha

lemma deliverPhase_length : ∀ (es : List (Nat × Nat)) (ns : List Node),
    (deliverPhase es ns).length = ns.length := by
  intro es
  induction es with
  | nil => intro ns; rfl
  | cons e es ih =>
    intro ns
    obtain ⟨u, v⟩ := e
    rw [deliverPhase, ih, pushMsg_length]

lemma deliverPhase_get? : ∀ (es : List (Nat × Nat)) (ns : List Node) (i : Nat) (a : Node),
    ns.get? i = some a →
    ∃ t : List Coloring, (deliverPhase es ns).get? i = some { a with inbox := a.inbox ++ t } ∧
      t.length ≤ inDegree es i := by
  intro es
  induction es with
  | nil =>
    intro ns i a ha
    exact ⟨[], by simpa [deliverPhase] using ha, by simp [inDegree]⟩
  | cons e es ih =>
    intro ns i a ha
    obtain ⟨u, v⟩ := e
    obtain ⟨t0, h0, hl0⟩ := pushMsg_get? u v ha
    obtain ⟨t1, h1, hl1⟩ := ih (pushMsg ns u v) i _ h0
    refine ⟨t0 ++ t1, ?_, ?_⟩
    · rw [deliverPhase]
      simpa [List.append_assoc] using h1
    · have : inDegree ((u, v) :: es) i = (if v = i then 1 else 0) + inDegree es i := by
        simp only [inDegree, List.countP_cons]
        by_cases hvi : v = i <;> simp [hvi] <;> omega
      rw [this]
      simp only [List.length_append]
      omega

lemma deliverPhase_coloring (es : List (Nat × Nat)) (ns : List Node) (i : Nat) :
    ((deliverPhase es ns).get? i).map Node.coloring = (ns.get? i).map Node.coloring := by
  cases ha : ns.get? i with
  | none =>
    have hlen : ns.length ≤ i := List.get?_eq_none.mp ha
    have hnone : (deliverPhase es ns).get? i = none := by
      apply List.get?_eq_none.mpr
      rw [deliverPhase_length]
      exact hlen
    rw [hnone]
  | some a =>
    obtain ⟨t, ht, _⟩ := deliverPhase_get? es ns i a ha
    rw [ht]
    rfl

lemma deliverPhase_mem_inbox : ∀ (es : List (Nat × Nat)) (ns : List Node) (u v : Nat)
    (a b : Node), (u, v) ∈ es → ns.get? u = some a →
    (deliverPhase es ns).get? v = some b → a.coloring ∈ b.inbox := by
  intro es
  induction es with
  | nil => intro ns u v a b h; simp at h
  | cons e es ih =>
    intro ns u v a b hmem hu hb
    obtain ⟨p, q⟩ := e
    rcases List.mem_cons.mp hmem with heq | htl
    · -- the head edge is (u, v): the push itself delivers the message
      injection heq with h1 h2
      subst h1
      subst h2
      rw [deliverPhase] at hb
      have hvlt : v < ns.length := by
        rcases List.get?_eq_some.mp hb with ⟨h, _⟩
        rw [deliverPhase_length, pushMsg_length] at h
        exact h
      cases hnv : ns.get? v with
      | none =>
        have := List.get?_eq_none.mp hnv
        omega
      | some nv =>
        have hpush := pushMsg_get?_push hu hnv
        obtain ⟨t, ht, _⟩ := deliverPhase_get? es (pushMsg ns u v) v _ hpush
        rw [hb] at ht
        cases ht
        simp
    · -- the edge is delivered later; inboxes only grow
      have := pushMsg_get? p q hu
      obtain ⟨t0, h0, _⟩ := this
      have := ih (pushMsg ns p q) u v _ b htl h0 (by rw [deliverPhase] at hb; exact hb)
      simpa using this


lemma countP_le_of_get? (p : Node → Bool) :
    ∀ (l l' : List Node), l'.length = l.length →
      (∀ i a b, l.get? i = some a → l'.get? i = some b → p b = true → p a = true) →
      l'.countP p ≤ l.countP p := by
  intro l
  induction l with
  | nil =>
    intro l' hlen _
    have : l' = [] := List.length_eq_zero.mp (by simpa using hlen)
    simp [this]
  | cons x xs ih =>
    intro l' hlen hpt
    cases l' with
    | nil => simp
    | cons y ys =>
      have hlen' : ys.length = xs.length := by simpa using hlen
      have hys := ih ys hlen' (fun i a b ha hb => hpt (i + 1) a b (by simpa using ha) (by simpa using hb))
      have hxy : p y = true → p x = true := hpt 0 x y rfl rfl
      simp only [List.countP_cons]
      by_cases hy : p y = true
      · have hx := hxy hy
        simp [hy, hx]
        omega
      · have : p y = false := by simpa using hy
        simp only [this, if_neg, Bool.false_eq_true]
        by_cases hx : p x = true <;> simp [hx] <;> omega

lemma roundStep_length {delta : Nat} {edges : List (Nat × Nat)} {ns : List Node}
    {ds : List Nat} {ns' : List Node} {ds' : List Nat}
    (h : roundStep delta edges ns ds = some (ns', ds')) : ns'.length = ns.length := by
  rw [roundStep] at h
  rw [computePhase_length h, deliverPhase_length]

/-- Every post-round node is a `stepRel` successor of the pre-round node
at the same index, whose coloring is the pre-round coloring and whose
inbox extends the pre-round inbox by at most `inDegree` messages. -/
lemma roundStep_get? {delta : Nat} {edges : List (Nat × Nat)} {ns : List Node}
    {ds : List Nat} {ns' : List Node} {ds' : List Nat}
    (h : roundStep delta edges ns ds = some (ns', ds')) {i : Nat} {a : Node}
    (ha : ns.get? i = some a) :
    ∃ t b, (deliverPhase edges ns).get? i = some { a with inbox := a.inbox ++ t } ∧
      t.length ≤ inDegree edges i ∧ ns'.get? i = some b ∧
      stepRel delta { a with inbox := a.inbox ++ t } b := by
  obtain ⟨t, ht, htl⟩ := deliverPhase_get? edges ns i a ha
  rw [roundStep] at h
  obtain ⟨b, hb, hrel⟩ := computePhase_stepRel h i _ ht
  exact ⟨t, b, ht, htl, hb, hrel⟩

lemma roundStep_colorsLe {delta : Nat} {edges : List (Nat × Nat)} {ns : List Node}
    {ds : List Nat} {ns' : List Node} {ds' : List Nat}
    (hc : ColorsLe delta ns) (h : roundStep delta edges ns ds = some (ns', ds')) :
    ColorsLe delta ns' := by
  intro b hb
  obtain ⟨i, hbi⟩ := List.mem_iff_get?.mp hb
  have hilt : i < ns.length := by
    rcases List.get?_eq_some.mp hbi with ⟨hl, _⟩
    rwa [roundStep_length h] at hl
  cases ha : ns.get? i with
  | none => exact absurd (List.get?_eq_none.mp ha) (by omega)
  | some a =>
    obtain ⟨t, b', _, _, hb', hrel⟩ := roundStep_get? h ha
    rw [hbi] at hb'
    cases hb'
    have hacol : a.coloring.color ≤ delta := hc a (List.mem_iff_get?.mpr ⟨i, ha⟩)
    rcases stepRel_cases hrel with ⟨_, rfl⟩ | ⟨c, hcand, hcase⟩
    · exact hacol
    · have : a.coloring = .Candidate c := hcand
      rcases hcase with ⟨_, rfl⟩ | ⟨_, c', hc', rfl⟩
      · simpa [Coloring.color, this] using hacol
      · simpa [Coloring.color] using availableColors_subset hc'

lemma roundStep_countCandidates {delta : Nat} {edges : List (Nat × Nat)} {ns : List Node}
    {ds : List Nat} {ns' : List Node} {ds' : List Nat}
    (h : roundStep delta edges ns ds = some (ns', ds')) :
    countCandidates ns' ≤ countCandidates ns := by
  apply countP_le_of_get?
  · exact roundStep_length h
  · intro i a b ha hb hcand
    obtain ⟨t, b', _, _, hb', hrel⟩ := roundStep_get? h ha
    rw [hb] at hb'
    cases hb'
    have := stepRel_candidate_of_candidate hrel hcand
    simpa using this

lemma roundStep_permanent {delta : Nat} {edges : List (Nat × Nat)} {ns : List Node}
    {ds : List Nat} {ns' : List Node} {ds' : List Nat} {i : Nat} {a : Node} {c : Nat}
    (h : roundStep delta edges ns ds = some (ns', ds')) (ha : ns.get? i = some a)
    (hp : a.coloring = .Permanent c) :
    ∃ b, ns'.get? i = some b ∧ b.coloring = .Permanent c := by
  obtain ⟨t, b, _, _, hb, hrel⟩ := roundStep_get? h ha
  have : b = { a with inbox := a.inbox ++ t } := stepRel_permanent hrel hp
  exact ⟨b, hb, by rw [this]; exact hp⟩

lemma iterRounds_permanent {delta : Nat} {edges : List (Nat × Nat)} :
    ∀ (k : Nat) (ns : List Node) (ds : List Nat) (ns' : List Node) (ds' : List Nat),
      iterRounds delta edges k (ns, ds) = some (ns', ds') →
      ∀ i a c, ns.get? i = some a → a.coloring = .Permanent c →
        ∃ b, ns'.get? i = some b ∧ b.coloring = .Permanent c := by
  intro k
  induction k with
  | zero =>
    intro ns ds ns' ds' h i a c ha hp
    simp only [iterRounds, Option.some.injEq, Prod.mk.injEq] at h
    exact ⟨a, by rw [← h.1]; exact ha, hp⟩
  | succ m ih =>
    intro ns ds ns' ds' h i a c ha hp
    unfold iterRounds at h
    split at h
    · cases h
    case _ s' hs =>
      obtain ⟨b, hb, hbp⟩ := roundStep_permanent hs ha hp
      exact ih s'.1 s'.2 ns' ds' h i b c hb hbp

lemma length_le_filter_not_perm (m : Coloring) :
    ∀ {l : List Nat}, l.Nodup →
      l.length ≤ (l.filter (fun c => !(m.isPermanentWith c))).length + 1 := by
  cases m with
  | Candidate v =>
    intro l _
    simp [Coloring.isPermanentWith]
  | Permanent v =>
    intro l hl
    induction l with
    | nil => simp
    | cons x xs ih =>
      have hx : x ∉ xs := (List.nodup_cons.mp hl).1
      have hxs : xs.Nodup := (List.nodup_cons.mp hl).2
      by_cases hvx : (Coloring.Permanent v).isPermanentWith x = true
      · have hveq : v = x := by simpa [Coloring.isPermanentWith] using hvx
        have hfilter : xs.filter (fun c => !((Coloring.Permanent v).isPermanentWith c)) = xs := by
          apply List.filter_eq_self.mpr
          intro y hy
          have hne : v ≠ y := by rw [hveq]; exact fun h => hx (h ▸ hy)
          simp [Coloring.isPermanentWith, hne]
        rw [List.filter_cons_of_neg (by simpa using hvx), hfilter]
        simp
      · rw [List.filter_cons_of_pos (by simpa using hvx)]
        have := ih hxs
        simp only [List.length_cons]
        omega

lemma length_le_filter_avail (delta : Nat) :
    ∀ (inbox : List Coloring) {l : List Nat}, l.Nodup →
      l.length ≤ (l.filter (fun c => !(inbox.any (fun m => m.isPermanentWith c)))).length +
        inbox.length := by
  intro inbox
  induction inbox with
  | nil =>
    intro l _
    simp
  | cons m rest ih =>
    intro l hl
    have hsplit : l.filter (fun c => !((m :: rest).any (fun m2 => m2.isPermanentWith c))) =
        (l.filter (fun c => !(rest.any (fun m2 => m2.isPermanentWith c)))).filter
          (fun c => !(m.isPermanentWith c)) := by
      rw [List.filter_filter]
      apply List.filter_congr
      intro c _
      simp only [List.any_cons, Bool.not_or]
    have h1 := ih hl
    have h2 := length_le_filter_not_perm m
      (List.Nodup.filter (fun c => !(rest.any (fun m2 => m2.isPermanentWith c))) hl)
    rw [hsplit]
    simp only [List.length_cons]
    omega

/-- Pigeonhole: a candidate vertex whose inbox holds at most `delta`
messages always finds an available color in the palette of `delta + 1`
colors. -/
lemma availableColors_ne_nil {delta : Nat} {inbox : List Coloring}
    (h : inbox.length ≤ delta) : availableColors delta inbox ≠ [] := by
  have hn : (palette delta).Nodup := by rw [palette]; exact List.nodup_range _
  have hlen : (palette delta).length = delta + 1 := by simp [palette]
  have hle := length_le_filter_avail delta inbox hn
  rw [hlen] at hle
  intro hnil
  rw [availableColors] at hnil
  rw [hnil] at hle
  simp at hle
  omega

lemma updateNode_isSome {delta : Nat} {n : Node}
    (h : n.coloring.isCandidate = true → n.inbox.length ≤ delta) (ds : List Nat) :
    updateNode delta n ds ≠ none := by
  unfold updateNode
  split
  · simp
  case _ c hc =>
    split
    · simp
    · dsimp only []
      split
      case isTrue he =>
        have hcand : n.coloring.isCandidate = true := by simp [hc, Coloring.isCandidate]
        have hne := availableColors_ne_nil (h hcand)
        rw [List.isEmpty_iff] at he
        exact absurd he hne
      · simp

lemma computePhase_isSome {delta : Nat} :
    ∀ {ns : List Node}, (∀ n ∈ ns, n.coloring.isCandidate = true → n.inbox.length ≤ delta) →
      ∀ ds, computePhase delta ns ds ≠ none := by
  intro ns
  induction ns with
  | nil => intro _ ds; simp [computePhase]
  | cons n rest ih =>
    intro h ds
    unfold computePhase
    split
    case _ hu => exact absurd hu (updateNode_isSome (h n (by simp)) ds)
    case _ p hu =>
      split
      case _ hrest =>
        exact absurd hrest (ih (fun x hx => h x (by simp [hx])) _)
      · simp

/-- If the compute step turned `n` into a `Permanent c` node, then `c`
was the color `n` already held, and either `n` was permanent before,
or it was tentative and no inbox message carried `c`. -/
lemma stepRel_perm_out {delta : Nat} {n n' : Node} {c : Nat} (hrel : stepRel delta n n')
    (h : n'.coloring = .Permanent c) :
    n.coloring.color = c ∧
      (n.coloring = .Permanent c ∨
        (n.coloring.isCandidate = true ∧ ∀ m ∈ n.inbox, m.color ≠ c)) := by
  rcases stepRel_cases hrel with ⟨_, rfl⟩ | ⟨ca, hca, hcase⟩
  · exact ⟨by rw [h]; rfl, Or.inl h⟩
  · rcases hcase with ⟨hmem, rfl⟩ | ⟨_, c', _, rfl⟩
    · have hc : ca = c := by
        simpa [Coloring.Permanent.injEq] using h
      subst hc
      refine ⟨by simp [hca, Coloring.color], Or.inr ⟨by simp [hca, Coloring.isCandidate], ?_⟩⟩
      exact (mem_candidateColors.mp hmem).2
    · simp [Coloring.Candidate, Coloring.Permanent] at h

lemma roundStep_validInv {delta : Nat} {edges : List (Nat × Nat)} {ns : List Node}
    {ds : List Nat} {ns' : List Node} {ds' : List Nat}
    (hsym : ∀ u v, (u, v) ∈ edges → (v, u) ∈ edges)
    (hI : ValidInv edges ns) (h : roundStep delta edges ns ds = some (ns', ds')) :
    ValidInv edges ns' := by
  intro u v huv a' b' ha' hb' cu cv hcu hcv
  have hult : u < ns.length := by
    rcases List.get?_eq_some.mp ha' with ⟨hl, _⟩
    rwa [roundStep_length h] at hl
  have hvlt : v < ns.length := by
    rcases List.get?_eq_some.mp hb' with ⟨hl, _⟩
    rwa [roundStep_length h] at hl
  cases ha : ns.get? u with
  | none => exact absurd (List.get?_eq_none.mp ha) (by omega)
  | some a =>
  cases hb : ns.get? v with
  | none => exact absurd (List.get?_eq_none.mp hb) (by omega)
  | some b =>
  obtain ⟨ta, a2, hda, _, ha2, hrela⟩ := roundStep_get? h ha
  rw [ha'] at ha2
  cases ha2
  obtain ⟨tb, b2, hdb, _, hb2, hrelb⟩ := roundStep_get? h hb
  rw [hb'] at hb2
  cases hb2
  obtain ⟨hacol, hacase⟩ := stepRel_perm_out hrela hcu
  obtain ⟨hbcol, hbcase⟩ := stepRel_perm_out hrelb hcv
  have hacol' : a.coloring.color = cu := hacol
  have hbcol' : b.coloring.color = cv := hbcol
  rcases hbcase with hbperm | ⟨_, hbfree⟩
  · -- the target vertex was already permanent before the round
    rcases hacase with haperm | ⟨_, hafree⟩
    · exact hI u v huv a b ha hb cu cv haperm hbperm
    · -- the source vertex committed this round: the target's permanent
      -- color was in the source's inbox
      have hmm : b.coloring ∈ a.inbox ++ ta :=
        deliverPhase_mem_inbox edges ns v u b { a with inbox := a.inbox ++ ta }
          (hsym u v huv) hb hda
      have := hafree b.coloring hmm
      rw [hbperm] at this
      intro hcc
      exact this (by simp [Coloring.color, hcc])
  · -- the target vertex committed this round: the source's pre-round
    -- coloring was delivered into the target's inbox and avoided
    have hmm : a.coloring ∈ b.inbox ++ tb :=
      deliverPhase_mem_inbox edges ns u v a { b with inbox := b.inbox ++ tb } huv ha hdb
    have := hbfree a.coloring hmm
    rw [← hacol']
    exact this

lemma initPhase_length {delta : Nat} :
    ∀ (ns : List Node) (ds : List Nat), (initPhase delta ns ds).1.length = ns.length := by
  intro ns
  induction ns with
  | nil => intro ds; rfl
  | cons n rest ih =>
    intro ds
    simp only [initPhase]
    simpa using ih ds.tail

lemma initPhase_get? {delta : Nat} :
    ∀ (ns : List Node) (ds : List Nat) (i : Nat) (a : Node), ns.get? i = some a →
      ∃ d, (initPhase delta ns ds).1.get? i =
        some { a with coloring := .Candidate (chooseFrom (palette delta) d) } := by
  intro ns
  induction ns with
  | nil => intro ds i a ha; simp at ha
  | cons n rest ih =>
    intro ds i a ha
    cases i with
    | zero =>
      simp only [List.get?_cons_zero, Option.some.injEq] at ha
      subst ha
      exact ⟨ds.headD 0, by simp [initPhase]⟩
    | succ j =>
      simp only [List.get?_cons_succ] at ha
      obtain ⟨d, hd⟩ := ih ds.tail j a ha
      exact ⟨d, by simpa [initPhase] using hd⟩

lemma palette_ne_nil (delta : Nat) : palette delta ≠ [] := by
  have : (palette delta).length = delta + 1 := by simp [palette]
  intro h
  rw [h] at this
  simp at this

lemma initPhase_mem {delta : Nat} {ns : List Node} {ds : List Nat} {b : Node}
    (hb : b ∈ (initPhase delta ns ds).1) :
    ∃ a ∈ ns, ∃ d, b = { a with coloring := .Candidate (chooseFrom (palette delta) d) } := by
  obtain ⟨i, hbi⟩ := List.mem_iff_get?.mp hb
  have hlt : i < ns.length := by
    rcases List.get?_eq_some.mp hbi with ⟨hl, _⟩
    rwa [initPhase_length] at hl
  cases ha : ns.get? i with
  | none => exact absurd (List.get?_eq_none.mp ha) (by omega)
  | some a =>
    obtain ⟨d, hd⟩ := initPhase_get? ns ds i a ha
    rw [hbi] at hd
    cases hd
    exact ⟨a, List.mem_iff_get?.mpr ⟨i, ha⟩, d, rfl⟩

lemma initPhase_colorsLe {delta : Nat} (ns : List Node) (ds : List Nat) :
    ColorsLe delta (initPhase delta ns ds).1 := by
  intro b hb
  obtain ⟨a, _, d, rfl⟩ := initPhase_mem hb
  have := chooseFrom_mem (palette_ne_nil delta) d
  simpa [Coloring.color] using mem_palette.mp this

lemma initPhase_all_candidate {delta : Nat} (ns : List Node) (ds : List Nat) :
    ∀ b ∈ (initPhase delta ns ds).1, b.coloring.isCandidate = true := by
  intro b hb
  obtain ⟨a, _, d, rfl⟩ := initPhase_mem hb
  rfl

lemma initPhase_validInv {delta : Nat} (edges : List (Nat × Nat)) (ns : List Node)
    (ds : List Nat) : ValidInv edges (initPhase delta ns ds).1 := by
  intro u v _ a b ha _ cu cv hcu _
  have := initPhase_all_candidate ns ds a (List.mem_iff_get?.mpr ⟨u, ha⟩)
  rw [hcu] at this
  cases this

lemma algLoop_finished_inv {delta : Nat} {edges : List (Nat × Nat)} (P : List Node → Prop)
    (hstep : ∀ ns ds ns' ds', P ns → roundStep delta edges ns ds = some (ns', ds') → P ns') :
    ∀ (fuel : Nat) (ns : List Node) (ds : List Nat) (final : List Node),
      P ns → algLoop delta edges fuel ns ds = .finished final → P final := by
  intro fuel
  induction fuel with
  | zero => intro ns ds final _ h; cases h
  | succ m ih =>
    intro ns ds final hP h
    unfold algLoop at h
    split at h
    · cases h
    case _ ns' ds' hs =>
      have hP' := hstep ns ds ns' ds' hP hs
      split at h
      · cases h; exact hP'
      · exact ih ns' ds' final hP' h

lemma algLoop_finished_noCandidate {delta : Nat} {edges : List (Nat × Nat)} :
    ∀ (fuel : Nat) (ns : List Node) (ds : List Nat) (final : List Node),
      algLoop delta edges fuel ns ds = .finished final →
      ∀ n ∈ final, n.coloring.isCandidate = false := by
  intro fuel
  induction fuel with
  | zero => intro ns ds final h; cases h
  | succ m ih =>
    intro ns ds final h
    unfold algLoop at h
    split at h
    · cases h
    case _ ns' ds' hs =>
      split at h
      case isTrue hall =>
        cases h
        intro n hn
        have := List.all_eq_true.mp hall n hn
        simpa using this
      case isFalse =>
        exact ih ns' ds' final h

lemma algLoop_ne_panicked {delta : Nat} {edges : List (Nat × Nat)} (P : List Node → Prop)
    (hstep : ∀ ns ds ns' ds', P ns → roundStep delta edges ns ds = some (ns', ds') → P ns')
    (hnp : ∀ ns ds, P ns → roundStep delta edges ns ds ≠ none) :
    ∀ (fuel : Nat) (ns : List Node) (ds : List Nat),
      P ns → algLoop delta edges fuel ns ds ≠ .panicked := by
  intro fuel
  induction fuel with
  | zero => intro ns ds _ h; cases h
  | succ m ih =>
    intro ns ds hP h
    unfold algLoop at h
    split at h
    case _ hs => exact hnp ns ds hP hs
    case _ ns' ds' hs =>
      have hP' := hstep ns ds ns' ds' hP hs
      split at h
      · cases h
      · exact ih ns' ds' hP' h

lemma roundStep_candidatesClean {delta : Nat} {edges : List (Nat × Nat)} {ns : List Node}
    {ds : List Nat} {ns' : List Node} {ds' : List Nat}
    (h : roundStep delta edges ns ds = some (ns', ds')) :
    ∀ n ∈ ns', n.coloring.isCandidate = true → n.inbox = [] := by
  intro b hb hcand
  obtain ⟨i, hbi⟩ := List.mem_iff_get?.mp hb
  have hlt : i < ns.length := by
    rcases List.get?_eq_some.mp hbi with ⟨hl, _⟩
    rwa [roundStep_length h] at hl
  cases ha : ns.get? i with
  | none => exact absurd (List.get?_eq_none.mp ha) (by omega)
  | some a =>
    obtain ⟨t, b', _, _, hb', hrel⟩ := roundStep_get? h ha
    rw [hbi] at hb'
    cases hb'
    rcases stepRel_cases hrel with ⟨hf, rfl⟩ | ⟨c, _, hcase⟩
    · exact absurd hcand (by simp [hf])
    · rcases hcase with ⟨_, rfl⟩ | ⟨_, c', _, rfl⟩ <;> rfl

lemma roundStep_isSome {delta : Nat} {edges : List (Nat × Nat)} {ns : List Node}
    (hdeg : ∀ v, v < ns.length → inDegree edges v ≤ delta)
    (hclean : ∀ n ∈ ns, n.coloring.isCandidate = true → n.inbox = []) (ds : List Nat) :
    roundStep delta edges ns ds ≠ none := by
  rw [roundStep]
  apply computePhase_isSome
  intro m hm hcand
  obtain ⟨i, hmi⟩ := List.mem_iff_get?.mp hm
  have hlt : i < ns.length := by
    rcases List.get?_eq_some.mp hmi with ⟨hl, _⟩
    rwa [deliverPhase_length] at hl
  cases ha : ns.get? i with
  | none => exact absurd (List.get?_eq_none.mp ha) (by omega)
  | some a =>
    obtain ⟨t, ht, htl⟩ := deliverPhase_get? edges ns i a ha
    rw [hmi] at ht
    cases ht
    have hacand : a.coloring.isCandidate = true := hcand
    have hempty : a.inbox = [] := hclean a (List.mem_iff_get?.mpr ⟨i, ha⟩) hacand
    have : inDegree edges i ≤ delta := hdeg i hlt
    simp only [hempty, List.nil_append]
    omega

lemma iterRounds_inv {delta : Nat} {edges : List (Nat × Nat)} (P : List Node → Prop)
    (hstep : ∀ ns ds ns' ds', P ns → roundStep delta edges ns ds = some (ns', ds') → P ns') :
    ∀ (k : Nat) (s s' : List Node × List Nat),
      P s.1 → iterRounds delta edges k s = some s' → P s'.1 := by
  intro k
  induction k with
  | zero =>
    intro s s' hP h
    simp only [iterRounds, Option.some.injEq] at h
    rw [← h]
    exact hP
  | succ m ih =>
    intro s s' hP h
    unfold iterRounds at h
    split at h
    · cases h
    case _ s1 hs =>
      exact ih s1 s' (hstep s.1 s.2 s1.1 s1.2 hP (by rw [← hs])) h

lemma finished_run_validity (delta : Nat) (edges : List (Nat × Nat)) (fuel : Nat)
    (nodes : List Node) (ds : List Nat) (final : List Node)
    (hsym : ∀ u v, (u, v) ∈ edges → (v, u) ∈ edges)
    (hrun : distributed_randomized_coloring_algorithm delta edges fuel nodes ds =
      .finished final) :
    ∀ u v, (u, v) ∈ edges → ∀ a b, final.get? u = some a → final.get? v = some b →
      a.coloring.color ≠ b.coloring.color := by
  intro u v huv a b ha hb
  rw [distributed_randomized_coloring_algorithm] at hrun
  have hI : ValidInv edges final :=
    algLoop_finished_inv (ValidInv edges)
      (fun ns2 ds2 ns' ds' hP hs => roundStep_validInv hsym hP hs)
      fuel _ _ final (initPhase_validInv edges nodes ds) hrun
  have hnc := algLoop_finished_noCandidate fuel _ _ final hrun
  have hna : a.coloring.isCandidate = false := hnc a (List.mem_iff_get?.mpr ⟨u, ha⟩)
  have hnb : b.coloring.isCandidate = false := hnc b (List.mem_iff_get?.mpr ⟨v, hb⟩)
  cases hca : a.coloring with
  | Candidate c => rw [hca] at hna; cases hna
  | Permanent ca =>
    cases hcb : b.coloring with
    | Candidate c => rw [hcb] at hnb; cases hnb
    | Permanent cb =>
      have := hI u v huv a b ha hb ca cb hca hcb
      simpa [hca, hcb, Coloring.color] using this

/-- C1.  For every symmetric edge list (as all three topology providers
produce) and every completed run of the randomized algorithm, the final
colors of the two endpoints of every edge differ. -/
theorem randomized_run_validity (delta : Nat) (edges : List (Nat × Nat)) (fuel : Nat)
    (nodes : List Node) (ds : List Nat) (final : List Node)
    (hsym : ∀ u v, (u, v) ∈ edges → (v, u) ∈ edges)
    (hrun : distributed_randomized_coloring_algorithm delta edges fuel nodes ds =
      .finished final) :
    ∀ u v, (u, v) ∈ edges → ∀ a b, final.get? u = some a → final.get? v = some b →
      a.coloring.color ≠ b.coloring.color :=
  finished_run_validity delta edges fuel nodes ds final hsym hrun

/-- C2.  During every round of a randomized run every vertex color lies
in the palette `[0, delta]`, and a finished run ends with every vertex
`Permanent`. -/
theorem randomized_palette_bound_and_termination (delta : Nat) (edges : List (Nat × Nat))
    (fuel : Nat) (nodes : List Node) (ds : List Nat) :
    (∀ (k : Nat) (s' : List Node × List Nat),
      iterRounds delta edges k (initPhase delta nodes ds) = some s' → ColorsLe delta s'.1) ∧
    (∀ final, distributed_randomized_coloring_algorithm delta edges fuel nodes ds =
        .finished final →
      ColorsLe delta final ∧ ∀ n ∈ final, n.coloring.isCandidate = false) := by
  constructor
  · intro k s' h
    exact iterRounds_inv (ColorsLe delta)
      (fun ns2 ds2 ns' ds' hP hs => roundStep_colorsLe hP hs) k _ s'
      (initPhase_colorsLe nodes ds) h
  · intro final hrun
    rw [distributed_randomized_coloring_algorithm] at hrun
    constructor
    · exact algLoop_finished_inv (ColorsLe delta)
        (fun ns2 ds2 ns' ds' hP hs => roundStep_colorsLe hP hs)
        fuel _ _ final (initPhase_colorsLe nodes ds) hrun
    · exact algLoop_finished_noCandidate fuel _ _ final hrun

/-- C3.  Every round leaves the number of `Candidate` vertices
non-increasing, and a `Permanent` coloring survives any number of
rounds unchanged: `Permanent` is absorbing. -/
theorem randomized_progress_monotone (delta : Nat) (edges : List (Nat × Nat)) :
    (∀ (ns : List Node) (ds : List Nat) (ns' : List Node) (ds' : List Nat),
      roundStep delta edges ns ds = some (ns', ds') →
      countCandidates ns' ≤ countCandidates ns) ∧
    (∀ (k : Nat) (ns : List Node) (ds : List Nat) (ns' : List Node) (ds' : List Nat),
      iterRounds delta edges k (ns, ds) = some (ns', ds') →
      ∀ i a c, ns.get? i = some a → a.coloring = .Permanent c →
        ∃ b, ns'.get? i = some b ∧ b.coloring = .Permanent c) := by
  constructor
  · intro ns ds ns' ds' h
    exact roundStep_countCandidates h
  · intro k ns ds ns' ds' h i a c ha hp
    exact iterRounds_permanent k ns ds ns' ds' h i a c ha hp

/-- C5.  When `delta` bounds the in-degree of every vertex index and
the initial inboxes are empty (as the topology providers guarantee),
the randomized algorithm never hits the `unwrap()` panic: the set of
available colors of a redrawing vertex is never empty. -/
theorem randomized_redraw_never_panics (delta : Nat) (edges : List (Nat × Nat)) (fuel : Nat)
    (nodes : List Node) (ds : List Nat)
    (hdeg : ∀ v, v < nodes.length → inDegree edges v ≤ delta)
    (hinbox : ∀ n ∈ nodes, n.inbox = []) :
    distributed_randomized_coloring_algorithm delta edges fuel nodes ds ≠ .panicked := by
  rw [distributed_randomized_coloring_algorithm]
  apply algLoop_ne_panicked
    (fun ns => ns.length = nodes.length ∧ ∀ n ∈ ns, n.coloring.isCandidate = true → n.inbox = [])
  · intro ns2 ds2 ns' ds' hP hs
    exact ⟨by rw [roundStep_length hs, hP.1], roundStep_candidatesClean hs⟩
  · intro ns2 ds2 hP
    apply roundStep_isSome
    · intro v hv
      exact hdeg v (by rwa [hP.1] at hv)
    · exact hP.2
  · constructor
    · exact initPhase_length nodes ds
    · intro n hn _
      obtain ⟨a, haa, d, rfl⟩ := initPhase_mem hn
      exact hinbox a haa

/-- C4.  The per-round update of a `Candidate` vertex commits to its
own unchanged color exactly when no inbox message of the round carries
that color; otherwise the vertex stays `Candidate` with a color drawn
from the palette minus the `Permanent` inbox colors. -/
theorem candidate_update_characterization (delta : Nat) (n : Node) (c : Nat) (ds : List Nat)
    (hc : n.coloring = .Candidate c) (hpal : c ≤ delta) :
    ((∀ m ∈ n.inbox, m.color ≠ c) →
      updateNode delta n ds = some ({ n with coloring := .Permanent c, inbox := [] }, ds)) ∧
    ((∃ m ∈ n.inbox, m.color = c) → ∀ n' ds', updateNode delta n ds = some (n', ds') →
      ∃ c', c' ∈ availableColors delta n.inbox ∧
        n' = { n with coloring := .Candidate c', inbox := [] }) := by
  constructor
  · intro hfree
    have hmem : c ∈ candidateColors delta n.inbox := mem_candidateColors.mpr ⟨hpal, hfree⟩
    unfold updateNode
    rw [hc]
    dsimp only []
    rw [if_pos (by simpa using hmem)]
  · rintro ⟨m, hm, hmc⟩ n' ds' h
    have hnotmem : c ∉ candidateColors delta n.inbox :=
      fun hcc => (mem_candidateColors.mp hcc).2 m hm hmc
    rcases stepRel_cases ⟨ds, ds', h⟩ with ⟨hf, rfl⟩ | ⟨ca, hca, hcase⟩
    · rw [hc] at hf
      cases hf
    · rw [hc] at hca
      have hceq : ca = c := by
        simpa [Coloring.Candidate.injEq] using hca.symm
      subst hceq
      rcases hcase with ⟨hmem2, _⟩ | ⟨_, c', hc', rfl⟩
      · exact absurd hmem2 hnotmem
      · exact ⟨c', hc', rfl⟩


lemma computeSeq_cons (delta : Nat) (dsf : Nat → Nat) (i : Nat) (rest : List Nat)
    (ns : List Node) :
    computeSeq delta dsf (i :: rest) ns =
      (computeAt delta dsf ns i).bind (computeSeq delta dsf rest) := by
  rw [computeSeq]
  cases computeAt delta dsf ns i <;> rfl

lemma computeAt_of_get?_none {delta : Nat} {dsf : Nat → Nat} {ns : List Node} {i : Nat}
    (h : ns.get? i = none) : computeAt delta dsf ns i = some ns := by
  unfold computeAt
  rw [h]

lemma computeAt_of_update_none {delta : Nat} {dsf : Nat → Nat} {ns : List Node} {i : Nat}
    {n : Node} (h : ns.get? i = some n) (hu : updateNode delta n [dsf i] = none) :
    computeAt delta dsf ns i = none := by
  unfold computeAt
  rw [h]
  dsimp only []
  rw [hu]

lemma computeAt_of_update_some {delta : Nat} {dsf : Nat → Nat} {ns : List Node} {i : Nat}
    {n n' : Node} {r : List Nat} (h : ns.get? i = some n)
    (hu : updateNode delta n [dsf i] = some (n', r)) :
    computeAt delta dsf ns i = some (ns.set i n') := by
  unfold computeAt
  rw [h]
  dsimp only []
  rw [hu]

lemma computeAt_comm (delta : Nat) (dsf : Nat → Nat) (ns : List Node) {i j : Nat}
    (hij : i ≠ j) :
    (computeAt delta dsf ns i).bind (fun ms => computeAt delta dsf ms j) =
    (computeAt delta dsf ns j).bind (fun ms => computeAt delta dsf ms i) := by
  cases hi : ns.get? i with
  | none =>
    cases hj : ns.get? j with
    | none =>
      simp only [computeAt_of_get?_none hi, computeAt_of_get?_none hj, Option.some_bind]
    | some b =>
      cases hub : updateNode delta b [dsf j] with
      | none =>
        simp only [computeAt_of_get?_none hi, computeAt_of_update_none hj hub,
          Option.some_bind, Option.none_bind]
      | some pb =>
        obtain ⟨b', rb⟩ := pb
        have hsetb : (ns.set j b').get? i = ns.get? i := List.get?_set_ne _ _ (Ne.symm hij)
        simp only [computeAt_of_get?_none hi, computeAt_of_update_some hj hub,
          Option.some_bind, computeAt_of_get?_none (hsetb.trans hi)]
  | some a =>
    cases hua : updateNode delta a [dsf i] with
    | none =>
      cases hj : ns.get? j with
      | none =>
        simp only [computeAt_of_update_none hi hua, computeAt_of_get?_none hj,
          Option.some_bind, Option.none_bind]
      | some b =>
        cases hub : updateNode delta b [dsf j] with
        | none =>
          simp only [computeAt_of_update_none hi hua, computeAt_of_update_none hj hub,
            Option.none_bind]
        | some pb =>
          obtain ⟨b', rb⟩ := pb
          have hsetb : (ns.set j b').get? i = ns.get? i := List.get?_set_ne _ _ (Ne.symm hij)
          simp only [computeAt_of_update_none hi hua, computeAt_of_update_some hj hub,
            Option.some_bind, Option.none_bind,
            computeAt_of_update_none (hsetb.trans hi) hua]
    | some pa =>
      obtain ⟨a', ra⟩ := pa
      have hseta : (ns.set i a').get? j = ns.get? j := List.get?_set_ne _ _ hij
      cases hj : ns.get? j with
      | none =>
        simp only [computeAt_of_update_some hi hua, Option.some_bind,
          computeAt_of_get?_none (hseta.trans hj), computeAt_of_get?_none hj]
      | some b =>
        cases hub : updateNode delta b [dsf j] with
        | none =>
          simp only [computeAt_of_update_some hi hua, Option.some_bind,
            computeAt_of_update_none (hseta.trans hj) hub,
            computeAt_of_update_none hj hub, Option.none_bind]
        | some pb =>
          obtain ⟨b', rb⟩ := pb
          have hsetb : (ns.set j b').get? i = ns.get? i := List.get?_set_ne _ _ (Ne.symm hij)
          simp only [computeAt_of_update_some hi hua, computeAt_of_update_some hj hub,
            Option.some_bind, computeAt_of_update_some (hseta.trans hj) hub,
            computeAt_of_update_some (hsetb.trans hi) hua]
          rw [List.set_comm _ _ _ hij]

lemma computeSeq_perm (delta : Nat) (dsf : Nat → Nat) {o1 o2 : List Nat} (hp : o1.Perm o2) :
    ∀ ns, computeSeq delta dsf o1 ns = computeSeq delta dsf o2 ns := by
  induction hp with
  | nil => intro ns; rfl
  | cons x _ ih =>
    intro ns
    rw [computeSeq_cons, computeSeq_cons]
    cases computeAt delta dsf ns x with
    | none => rfl
    | some ns1 => exact ih ns1
  | swap x y l =>
    intro ns
    by_cases hxy : y = x
    · subst hxy; rfl
    · rw [computeSeq_cons, computeSeq_cons]
      have hcomm := computeAt_comm delta dsf ns hxy
      calc (computeAt delta dsf ns y).bind (computeSeq delta dsf (x :: l)) =
          ((computeAt delta dsf ns y).bind (fun ms => computeAt delta dsf ms x)).bind
            (computeSeq delta dsf l) := by
            rw [Option.bind_assoc]
            apply congrArg
            funext ms
            rw [computeSeq_cons]
        _ = ((computeAt delta dsf ns x).bind (fun ms => computeAt delta dsf ms y)).bind
            (computeSeq delta dsf l) := by rw [hcomm]
        _ = (computeAt delta dsf ns x).bind (computeSeq delta dsf (y :: l)) := by
            rw [Option.bind_assoc]
            apply congrArg
            funext ms
            rw [computeSeq_cons]
  | trans _ _ ih1 ih2 =>
    intro ns
    rw [ih1 ns, ih2 ns]

lemma updateNode_headD {delta : Nat} {n : Node} {ds : List Nat} {n1 : Node} {ds1 : List Nat}
    (h : updateNode delta n ds = some (n1, ds1)) :
    ∃ r, updateNode delta n [ds.headD 0] = some (n1, r) := by
  unfold updateNode at h ⊢
  split at h
  · simp only [Option.some.injEq, Prod.mk.injEq] at h
    exact ⟨[ds.headD 0], by rw [h.1]⟩
  · split at h
    · simp only [Option.some.injEq, Prod.mk.injEq] at h
      exact ⟨[ds.headD 0], by rw [if_pos (by assumption), h.1]⟩
    · dsimp only [] at h
      split at h
      · cases h
      · simp only [Option.some.injEq, Prod.mk.injEq] at h
        refine ⟨[], ?_⟩
        rw [if_neg (by assumption)]
        dsimp only []
        rw [if_neg (by assumption)]
        rw [← h.1]
        rfl

lemma computeAt_cons_succ (delta : Nat) (dsf g : Nat → Nat) (hcomp : ∀ k, dsf (k + 1) = g k)
    (n0 : Node) (ns : List Node) (i : Nat) :
    computeAt delta dsf (n0 :: ns) (i + 1) =
      (computeAt delta g ns i).map (fun ms => n0 :: ms) := by
  unfold computeAt
  simp only [List.get?_cons_succ]
  rw [hcomp i]
  cases ns.get? i with
  | none => rfl
  | some n =>
    dsimp only []
    cases updateNode delta n [g i] with
    | none => rfl
    | some p =>
      obtain ⟨n', r⟩ := p
      rfl

lemma computeSeq_shift (delta : Nat) (dsf g : Nat → Nat) (hcomp : ∀ k, dsf (k + 1) = g k)
    (n0 : Node) :
    ∀ (o : List Nat) (ns : List Node),
      computeSeq delta dsf (o.map (fun k => k + 1)) (n0 :: ns) =
        (computeSeq delta g o ns).map (fun ms => n0 :: ms) := by
  intro o
  induction o with
  | nil => intro ns; rfl
  | cons i rest ih =>
    intro ns
    rw [show (i :: rest).map (fun k => k + 1) = (i + 1) :: rest.map (fun k => k + 1) from rfl]
    rw [computeSeq_cons, computeAt_cons_succ delta dsf g hcomp, computeSeq_cons]
    cases computeAt delta g ns i with
    | none => rfl
    | some ns1 => exact ih ns1

lemma computePhase_to_computeSeq (delta : Nat) :
    ∀ (ns : List Node) (ds : List Nat) (ns' : List Node) (rest : List Nat),
      computePhase delta ns ds = some (ns', rest) →
      ∃ g : Nat → Nat, computeSeq delta g (List.range ns.length) ns = some ns' := by
  intro ns
  induction ns with
  | nil =>
    intro ds ns' rest h
    simp only [computePhase, Option.some.injEq, Prod.mk.injEq] at h
    exact ⟨fun _ => 0, by rw [← h.1]; rfl⟩
  | cons n tail ih =>
    intro ds ns' rest h
    unfold computePhase at h
    split at h
    · cases h
    case _ n1 ds1 hu =>
      split at h
      · cases h
      case _ ns1 rest1 hrest =>
        simp only [Option.some.injEq, Prod.mk.injEq] at h
        obtain ⟨g, hg⟩ := ih ds1 ns1 rest1 hrest
        obtain ⟨r, hr⟩ := updateNode_headD hu
        refine ⟨fun k => match k with | 0 => ds.headD 0 | k + 1 => g k, ?_⟩
        have hrange : List.range (n :: tail).length =
            0 :: (List.range tail.length).map (fun k => k + 1) := by
          simp [List.range_succ_eq_map, Nat.succ_eq_add_one]
        rw [hrange, computeSeq_cons]
        have hat : computeAt delta (fun k => match k with | 0 => ds.headD 0 | k + 1 => g k)
            (n :: tail) 0 = some (n1 :: tail) := by
          unfold computeAt
          simp only [List.get?_cons_zero]
          rw [hr]
          rfl
        rw [hat, Option.some_bind]
        rw [computeSeq_shift delta _ g (fun k => rfl)]
        rw [hg]
        rw [← h.1]
        rfl

/-- C6.  With a fixed assignment of random draws to vertex indices,
the compute phase gives one and the same resulting vertex collection in
every processing order, because each vertex update reads and writes
only its own entry; the sequentially-threaded compute phase of the
program is one such order. -/
theorem compute_order_independence (delta : Nat) (dsf : Nat → Nat) (ns : List Node) :
    (∀ o1 o2 : List Nat, o1.Perm o2 →
      computeSeq delta dsf o1 ns = computeSeq delta dsf o2 ns) ∧
    (∀ ds ns' rest, computePhase delta ns ds = some (ns', rest) →
      ∃ g : Nat → Nat, computeSeq delta g (List.range ns.length) ns = some ns') := by
  constructor
  · intro o1 o2 hp
    exact computeSeq_perm delta dsf hp ns
  · intro ds ns' rest h
    exact computePhase_to_computeSeq delta ns ds ns' rest h

/-- C7 (amended).  The compute phase clears the inbox of every vertex
it processes, i.e. of every `Candidate` vertex; a vertex that is
already `Permanent` is skipped by the `has_candidate_color` filter and
keeps its inbox untouched, so messages delivered to it persist across
rounds. -/
theorem compute_clears_candidate_inboxes (delta : Nat) (ns : List Node) (ds : List Nat)
    (ns' : List Node) (ds' : List Nat) (h : computePhase delta ns ds = some (ns', ds')) :
    ∀ i a, ns.get? i = some a →
      (a.coloring.isCandidate = true → ∃ b, ns'.get? i = some b ∧ b.inbox = []) ∧
      (a.coloring.isCandidate = false → ns'.get? i = some a) := by
  intro i a ha
  obtain ⟨b, hb, hrel⟩ := computePhase_stepRel h i a ha
  constructor
  · intro hcand
    rcases stepRel_cases hrel with ⟨hf, rfl⟩ | ⟨c, _, hcase⟩
    · rw [hcand] at hf
      cases hf
    · rcases hcase with ⟨_, rfl⟩ | ⟨_, c', _, rfl⟩ <;> exact ⟨_, hb, rfl⟩
  · intro hperm
    rcases stepRel_cases hrel with ⟨_, rfl⟩ | ⟨c, hc, _⟩
    · exact hb
    · rw [hc] at hperm
      cases hperm

/-- C7 (counterexample).  On the 3-vertex chain, with draws that make
vertex 0 go `Permanent` in round 1 while its neighbor stays tentative,
vertex 0 still holds a delivered message in its inbox at the end of
round 2's compute phase: a `Permanent` vertex retains messages across
rounds. -/
theorem inbox_retention_counterexample :
    (iterRounds 2 (chainEdges 3) 2 (initPhase 2 (initialNodes 3) [0, 1, 1, 1, 1])).map
        (fun s => s.1.map (fun n => (n.coloring, n.inbox))) =
      some [(Coloring.Permanent 0, [Coloring.Candidate 1]), (Coloring.Candidate 1, []),
        (Coloring.Candidate 0, [])] := by
  decide

lemma alg_k2_loop_unconverged :
    ∀ fuel, algLoop 1 (completeGraphEdges 2) fuel
      [⟨0, .Candidate 0, []⟩, ⟨1, .Candidate 0, []⟩] [] = .unconverged := by
  intro fuel
  induction fuel with
  | zero => rfl
  | succ m ih =>
    have hstep : algLoop 1 (completeGraphEdges 2) (m + 1)
        [⟨0, .Candidate 0, []⟩, ⟨1, .Candidate 0, []⟩] [] =
        algLoop 1 (completeGraphEdges 2) m
          [⟨0, .Candidate 0, []⟩, ⟨1, .Candidate 0, []⟩] [] := rfl
    rw [hstep]
    exact ih

lemma alg_k2_unconverged (fuel : Nat) :
    distributed_randomized_coloring_algorithm 1 (completeGraphEdges 2) fuel
      (initialNodes 2) [] = .unconverged := by
  have h1 : (initPhase 1 (initialNodes 2) []).1 =
      [⟨0, .Candidate 0, []⟩, ⟨1, .Candidate 0, []⟩] := by decide
  have h2 : (initPhase 1 (initialNodes 2) []).2 = ([] : List Nat) := by decide
  rw [distributed_randomized_coloring_algorithm, h1, h2]
  exact alg_k2_loop_unconverged fuel

/-- C8 (amended).  The round loop of the program has no maximum-rounds
guard: on the 2-vertex complete graph with the constant-zero draw
stream, the loop is still running after any number of rounds — it
iterates forever instead of surfacing an error. -/
theorem no_rounds_guard_amended :
    ∀ fuel, distributed_randomized_coloring_algorithm 1 (completeGraphEdges 2) fuel
      (initialNodes 2) [] = .unconverged := by
  intro fuel
  exact alg_k2_unconverged fuel

/-- C8 (counterexample).  The run on the 2-vertex complete graph with
the constant-zero draw stream never finishes and never reports an
error, whatever round bound one inspects: the claimed maximum-rounds
guard does not exist in the code. -/
theorem no_rounds_guard_counterexample :
    (fun fuel => distributed_randomized_coloring_algorithm 1 (completeGraphEdges 2) fuel
      (initialNodes 2) []) = fun _ => RunOutcome.unconverged := by
  funext fuel
  exact alg_k2_unconverged fuel


/-- C9 (amended).  At convergence of the halving policy every vertex
color is at most `delta + 1` (that is what the convergence check
tests); properness of the coloring at convergence is NOT guaranteed —
see the counterexample. -/
theorem halving_palette_bound (delta : Nat) (edges : List (Nat × Nat)) :
    ∀ (fuel : Nat) (ns ns' : List HNode), halvingLoop delta edges fuel ns = some ns' →
      ∀ n ∈ ns', n.color ≤ delta + 1 := by
  intro fuel
  induction fuel with
  | zero => intro ns ns' h; cases h
  | succ m ih =>
    intro ns ns' h
    unfold halvingLoop at h
    dsimp only [] at h
    split at h
    case isTrue hcv =>
      cases h
      intro n hn
      have := List.all_eq_true.mp hcv n hn
      simpa using this
    case isFalse =>
      exact ih (hRound edges ns) ns' h

/-- C9 (counterexample).  On the complete graph with 6 vertices
(`delta = 5`) the halving policy converges after one round with colors
`[0, 1, 4, 2, 4, 3]`: vertices 2 and 4 are adjacent and share the
color 4, so the coloring at convergence is not proper.  Both were the
maximum identity of their own conflict class and simultaneously
first-fit recolored to the same value. -/
theorem halving_properness_counterexample :
    (2, 4) ∈ completeGraphEdges 6 ∧
      (halvingLoop 5 (completeGraphEdges 6) 1 (hInit 6)).map
        (fun ns => ns.map (fun n => n.color)) = some [0, 1, 4, 2, 4, 3] := by
  constructor
  · decide
  · decide

lemma finished_run_length (delta : Nat) (edges : List (Nat × Nat)) (fuel : Nat)
    (nodes : List Node) (ds : List Nat) (final : List Node)
    (hrun : distributed_randomized_coloring_algorithm delta edges fuel nodes ds =
      .finished final) : final.length = nodes.length := by
  rw [distributed_randomized_coloring_algorithm] at hrun
  exact algLoop_finished_inv (fun ns => ns.length = nodes.length)
    (fun a b c d hP hs => by
      show c.length = nodes.length
      rw [roundStep_length hs]
      exact hP)
    fuel _ _ final (initPhase_length nodes ds) hrun

lemma finished_run_colorsLe (delta : Nat) (edges : List (Nat × Nat)) (fuel : Nat)
    (nodes : List Node) (ds : List Nat) (final : List Node)
    (hrun : distributed_randomized_coloring_algorithm delta edges fuel nodes ds =
      .finished final) : ColorsLe delta final := by
  rw [distributed_randomized_coloring_algorithm] at hrun
  exact algLoop_finished_inv (ColorsLe delta)
    (fun a b c d hP hs => roundStep_colorsLe hP hs)
    fuel _ _ final (initPhase_colorsLe nodes ds) hrun

lemma mem_completeGraphEdges {n u v : Nat} :
    (u, v) ∈ completeGraphEdges n ↔ u < n ∧ v < n ∧ v ≠ u := by
  simp only [completeGraphEdges, List.mem_flatMap, List.mem_map, List.mem_filter,
    List.mem_range, decide_eq_true_eq]
  constructor
  · rintro ⟨a, ha, b, ⟨hb, hbne⟩, heq⟩
    injection heq with h1 h2
    subst h1
    subst h2
    exact ⟨ha, hb, hbne⟩
  · rintro ⟨hu, hv, hne⟩
    exact ⟨u, hu, v, ⟨hv, hne⟩, rfl⟩

lemma completeGraphEdges_symm (n : Nat) :
    ∀ u v, (u, v) ∈ completeGraphEdges n → (v, u) ∈ completeGraphEdges n := by
  intro u v h
  rw [mem_completeGraphEdges] at h ⊢
  exact ⟨h.2.1, h.1, fun he => h.2.2 he.symm⟩

/-- C10.  A finished run of the randomized policy on the complete graph
with `n` vertices (palette `{0..n-1}`, `delta = n - 1`) assigns every
palette color to exactly one vertex: the final color list is a
permutation of `{0..n-1}`. -/
theorem complete_graph_run_bijection (n : Nat) (fuel : Nat) (ds : List Nat)
    (final : List Node)
    (hrun : distributed_randomized_coloring_algorithm (n - 1) (completeGraphEdges n) fuel
      (initialNodes n) ds = .finished final) :
    (final.map (fun nd => nd.coloring.color)).Perm (List.range n) := by
  have hlen : final.length = n := by
    rw [finished_run_length _ _ _ _ _ _ hrun]
    simp [initialNodes]
  have hcle : ColorsLe (n - 1) final := finished_run_colorsLe _ _ _ _ _ _ hrun
  have hval := finished_run_validity _ _ _ _ _ _ (completeGraphEdges_symm n) hrun
  have hllen : (final.map (fun nd => nd.coloring.color)).length = n := by
    simpa using hlen
  have hlt : ∀ x ∈ final.map (fun nd => nd.coloring.color), x < n := by
    intro x hx
    obtain ⟨nd, hnd, rfl⟩ := List.mem_map.mp hx
    have hx1 : nd.coloring.color ≤ n - 1 := hcle nd hnd
    have hn1 : n ≠ 0 := by
      intro h0
      subst h0
      rw [List.length_eq_zero.mp hlen] at hnd
      cases hnd
    omega
  have hnodup : (final.map (fun nd => nd.coloring.color)).Nodup := by
    rw [List.nodup_iff_get?_ne_get?]
    intro i j hij hj
    rw [hllen] at hj
    have hedge : (i, j) ∈ completeGraphEdges n :=
      mem_completeGraphEdges.mpr ⟨by omega, hj, by omega⟩
    cases hfi : final.get? i with
    | none =>
      have := List.get?_eq_none.mp hfi
      omega
    | some a =>
      cases hfj : final.get? j with
      | none =>
        have := List.get?_eq_none.mp hfj
        omega
      | some b =>
        have hne := hval i j hedge a b hfi hfj
        rw [List.get?_map, List.get?_map, hfi, hfj]
        simpa using hne
  have hsub : (final.map (fun nd => nd.coloring.color)).toFinset ⊆ Finset.range n := by
    intro x hx
    rw [List.mem_toFinset] at hx
    exact Finset.mem_range.mpr (hlt x hx)
  have hrange : (List.range n).toFinset = Finset.range n := by
    ext x
    simp
  have heq : (final.map (fun nd => nd.coloring.color)).toFinset = (List.range n).toFinset := by
    rw [hrange]
    apply Finset.eq_of_subset_of_card_le hsub
    rw [List.toFinset_card_of_nodup hnodup, hllen, Finset.card_range]
  exact List.perm_of_nodup_nodup_toFinset_eq hnodup (List.nodup_range n) heq


theorem randomized_run_validity_witness :
    (Node.mk 0 (.Permanent 0) []).coloring.color ≠ (Node.mk 1 (.Permanent 1) []).coloring.color :=
  randomized_run_validity 4 (completeGraphEdges 5) 1 (initialNodes 5) [0, 1, 2, 3, 4] k5Final
    (completeGraphEdges_symm 5) (by decide) 0 1 (by decide)
    (Node.mk 0 (.Permanent 0) []) (Node.mk 1 (.Permanent 1) []) (by decide) (by decide)

theorem randomized_palette_bound_witness :
    (Node.mk 0 (.Permanent 0) []).coloring.color ≤ 4 :=
  ((randomized_palette_bound_and_termination 4 (completeGraphEdges 5) 1 (initialNodes 5)
    [0, 1, 2, 3, 4]).2 k5Final (by decide)).1 (Node.mk 0 (.Permanent 0) []) (by decide)

theorem randomized_progress_witness :
    countCandidates [Node.mk 0 (.Permanent 0) [Coloring.Candidate 0],
        Node.mk 1 (.Candidate 1) []] ≤
      countCandidates [Node.mk 0 (.Permanent 0) [], Node.mk 1 (.Candidate 0) []] :=
  (randomized_progress_monotone 1 (chainEdges 2)).1
    [Node.mk 0 (.Permanent 0) [], Node.mk 1 (.Candidate 0) []] [0]
    [Node.mk 0 (.Permanent 0) [Coloring.Candidate 0], Node.mk 1 (.Candidate 1) []] []
    (by decide)

theorem candidate_update_witness :
    ∃ c', c' ∈ availableColors 1 [Coloring.Candidate 1] ∧
      Node.mk 0 (.Candidate 0) [] =
        { Node.mk 0 (.Candidate 1) [Coloring.Candidate 1] with
            coloring := .Candidate c', inbox := [] } :=
  (candidate_update_characterization 1 (Node.mk 0 (.Candidate 1) [Coloring.Candidate 1]) 1 [0]
      rfl (by decide)).2 ⟨Coloring.Candidate 1, by decide, rfl⟩
    (Node.mk 0 (.Candidate 0) []) [] (by decide)

theorem randomized_redraw_never_panics_witness :
    distributed_randomized_coloring_algorithm 1 (completeGraphEdges 2) 3 (initialNodes 2) [] ≠
      RunOutcome.panicked :=
  randomized_redraw_never_panics 1 (completeGraphEdges 2) 3 (initialNodes 2) []
    (by decide) (by decide)

theorem compute_order_independence_witness :
    computeSeq 1 (fun _ => 0) [0, 1]
        [Node.mk 0 (.Candidate 0) [], Node.mk 1 (.Candidate 1) []] =
      computeSeq 1 (fun _ => 0) [1, 0]
        [Node.mk 0 (.Candidate 0) [], Node.mk 1 (.Candidate 1) []] :=
  (compute_order_independence 1 (fun _ => 0)
    [Node.mk 0 (.Candidate 0) [], Node.mk 1 (.Candidate 1) []]).1 [0, 1] [1, 0] (by decide)

theorem compute_clears_candidate_inboxes_witness :
    ∃ b, [Node.mk 0 (.Candidate 0) []].get? 0 = some b ∧ b.inbox = ([] : List Coloring) :=
  ((compute_clears_candidate_inboxes 1 [Node.mk 0 (.Candidate 0) [Coloring.Candidate 0]] [0]
      [Node.mk 0 (.Candidate 0) []] [] (by decide)) 0
    (Node.mk 0 (.Candidate 0) [Coloring.Candidate 0]) (by decide)).1 rfl

theorem halving_palette_bound_witness : (HNode.mk 2 4).color ≤ 6 :=
  halving_palette_bound 5 (completeGraphEdges 6) 1 (hInit 6)
    [HNode.mk 0 0, HNode.mk 1 1, HNode.mk 2 4, HNode.mk 3 2, HNode.mk 4 4, HNode.mk 5 3]
    (by decide) (HNode.mk 2 4) (by decide)

theorem complete_graph_run_bijection_witness :
    (k5Final.map (fun nd => nd.coloring.color)).Perm (List.range 5) :=
  complete_graph_run_bijection 5 1 [0, 1, 2, 3, 4] k5Final (by decide)

end ColorReduction
